import Mathlib

/-!
Shallow embedding of `src/cache.py`: an LRU cache backed by a circular
doubly linked list of `ListHead` nodes plus a Python dict, and the
`lru_cache` memoization decorator built on top of it.

Modelling conventions:
* Linked-list nodes live in an arena (`LRUCache.nodes`); a Python object
  reference becomes an arena index, so `is` comparisons become index
  equality.  Nodes are only ever allocated (appended), matching Python,
  where unreachable nodes are garbage collected but never observed.
* Python dicts become association lists with first-match lookup,
  in-place overwrite and single deletion; since every reachable dict has
  unique keys this coincides with dict semantics for `d[k]`, `d[k] = v`,
  `del d[k]` and `k in d` (the only dict operations the source uses).
* `if self.prev:` and `if self.next:` in `ListHead` are always true in
  Python (the fields are initialised to `self` and only ever hold
  `ListHead` objects, which are truthy), so they reduce to the
  accompanying `is not self` tests.  `if self.queue:` is a `None` test.
* Operations that can raise keep all mutations performed before the
  raise, as in Python: `__setitem__` returns the post-state together
  with an error flag (`true` = uncaught `KeyError` from
  `_delete_oldest`), and `__getitem__` returns `none` for `KeyError`
  (its lookup is its first action, so no mutation precedes the raise).
* The unbounded `while` loops of `__iter__`, `iteritems` and `items`
  are modelled with an explicit fuel argument; the `Bool` component of
  their result records whether the Python loop has terminated within
  that much fuel (`false` = the loop is still running).
-/

set_option autoImplicit false
set_option linter.unusedSectionVars false

namespace PyCache

/-- List read at an index with a default, mirroring a read of an arena slot. -/
def lget {α : Type} : List α → Nat → α → α
  | [], _, d => d
  | a :: _, 0, _ => a
  | _ :: t, i + 1, d => lget t i d

/-- In-place list update (a no-op out of range, which never happens on states
built by the operations). -/
def lset {α : Type} : List α → Nat → α → List α
  | [], _, _ => []
  | _ :: t, 0, a => a :: t
  | b :: t, i + 1, a => b :: lset t i a

/-- Python `d[k]` as a total lookup: `none` models `KeyError`. -/
def dictGet? {K α : Type} [DecidableEq K] : List (K × α) → K → Option α
  | [], _ => none
  | (k', v) :: rest, k => if k' = k then some v else dictGet? rest k

/-- Python `d[k] = v`: overwrite in place, or append a new binding. -/
def dictSet {K α : Type} [DecidableEq K] : List (K × α) → K → α → List (K × α)
  | [], k, v => [(k, v)]
  | (k', v') :: rest, k, v =>
    if k' = k then (k, v) :: rest else (k', v') :: dictSet rest k v

/-- Python `del d[k]`: `none` models `KeyError` on an absent key. -/
def dictDel? {K α : Type} [DecidableEq K] : List (K × α) → K → Option (List (K × α))
  | [], _ => none
  | (k', v') :: rest, k =>
    if k' = k then some rest else (dictDel? rest k).map (fun d => (k', v') :: d)

/-- Python `k in d`. -/
def dictMem {K α : Type} [DecidableEq K] (d : List (K × α)) (k : K) : Bool :=
  (dictGet? d k).isSome

/-- One `ListHead` node: key/value payload plus `prev`/`next` arena indices.
`ListHead.__init__` self-links, so `prev`/`next` are never `None`. -/
structure Node (K V : Type) where
  key : K
  value : V
  prev : Nat
  next : Nat
deriving Repr, DecidableEq

instance {K V : Type} [Inhabited K] [Inhabited V] : Inhabited (Node K V) :=
  ⟨⟨default, default, 0, 0⟩⟩

/-- The state of an `LRUCache` instance: the `self.cache` dict (key to node
index), the node arena, `self.queue` (head node or `None`), `self.size` and
`self.maxsize`.  Sizes are `Int` because Python integers are unbounded and
`maxsize` may be negative. -/
structure LRUCache (K V : Type) where
  cache : List (K × Nat)
  nodes : List (Node K V)
  queue : Option Nat
  size : Int
  maxsize : Int
deriving Repr, DecidableEq

variable {K V : Type}

/-- `LRUCache.__init__(maxsize)`: no validation of any kind is performed. -/
def init (maxsize : Int) : LRUCache K V :=
  { cache := [], nodes := [], queue := none, size := 0, maxsize := maxsize }

/-- Read the arena slot `i` (always in range on reachable states). -/
def nget [Inhabited K] [Inhabited V] (s : LRUCache K V) (i : Nat) : Node K V :=
  lget s.nodes i default

/-- Assign `nodes[i].next = j`. -/
def setNext [Inhabited K] [Inhabited V] (s : LRUCache K V) (i j : Nat) : LRUCache K V :=
  { s with nodes := lset s.nodes i { nget s i with next := j } }

/-- Assign `nodes[i].prev = j`. -/
def setPrev [Inhabited K] [Inhabited V] (s : LRUCache K V) (i j : Nat) : LRUCache K V :=
  { s with nodes := lset s.nodes i { nget s i with prev := j } }

/-- `ListHead.unlink` on node `i`.  The Python guards `if self.prev:` /
`if self.next:` are always true, leaving the `is not self` tests.  The second
statement reads fields of `self` that the first statement cannot have changed
(it wrote `self.prev.next` with `self.prev ≠ self`), so reading them from the
original state is faithful. -/
def unlink [Inhabited K] [Inhabited V] (s : LRUCache K V) (i : Nat) : LRUCache K V :=
  let s1 := if (nget s i).prev ≠ i then setNext s (nget s i).prev (nget s i).next else s
  if (nget s i).next ≠ i then setPrev s1 (nget s i).next (nget s i).prev else s1

/-- `ListHead.prepend(node)` with `self = h` and `node = i`: insert `i` in
front of `h`.  The guard `if self.prev:` is always true.  `self.prev` is read
before it is reassigned, captured here as `p`. -/
def listPrepend [Inhabited K] [Inhabited V] (s : LRUCache K V) (h i : Nat) : LRUCache K V :=
  let p := (nget s h).prev
  let s1 := setNext s p i
  let s2 := setPrev s1 i p
  let s3 := setPrev s2 h i
  setNext s3 i h

/-- `LRUCache._update_node(node)` for node index `i`: splice the node out and
re-insert it in front of the current head, then make it the new head. -/
def updateNode [Inhabited K] [Inhabited V] (s : LRUCache K V) (i : Nat) : LRUCache K V :=
  let s1 :=
    match s.queue with
    | none => s
    | some q => if i = q then s else listPrepend (unlink s i) q i
  { s1 with queue := some i }

/-- `LRUCache._delete_oldest()`: delete the tail node's key from the dict,
unlink it and decrement `size`.  `del self.cache[node.key]` is the first
mutation; if it raises `KeyError` (flag `true`) the state is unchanged. -/
def deleteOldest [Inhabited K] [Inhabited V] [DecidableEq K] (s : LRUCache K V) :
    LRUCache K V × Bool :=
  match s.queue with
  | none => (s, false)
  | some q =>
    let t := (nget s q).prev
    match dictDel? s.cache (nget s t).key with
    | none => (s, true)
    | some d =>
      let s1 := unlink { s with cache := d } t
      ({ s1 with size := s1.size - 1 }, false)

/-- `LRUCache.__getitem__(key)`: `none` models `KeyError` (raised before any
mutation); on success the entry is promoted and its value returned. -/
def getitem [Inhabited K] [Inhabited V] [DecidableEq K] (s : LRUCache K V) (k : K) :
    Option (V × LRUCache K V) :=
  match dictGet? s.cache k with
  | none => none
  | some i =>
    let s1 := updateNode s i
    some ((nget s1 i).value, s1)

/-- The front half of `LRUCache.__setitem__(key, value)`: allocate a fresh
`ListHead` (even if `key` is already present!), store it in the dict, promote
it and increment `size`. -/
def insertRaw [Inhabited K] [Inhabited V] [DecidableEq K] (s : LRUCache K V) (k : K) (v : V) :
    LRUCache K V :=
  let i := s.nodes.length
  let s1 := { s with nodes :=
    s.nodes ++ [({ key := k, value := v, prev := i, next := i } : Node K V)] }
  let s2 := { s1 with cache := dictSet s1.cache k i }
  let s3 := updateNode s2 i
  { s3 with size := s3.size + 1 }

/-- The state of `__setitem__` just before `_update_node` runs: the fresh
self-linked node has been appended and stored in the dict.  Used only to
phrase proofs about `insertRaw`; `insertRaw s k v` is definitionally
`updateNode (midInsert s k v) s.nodes.length` with `size` bumped. -/
def midInsert [DecidableEq K] (s : LRUCache K V) (k : K) (v : V) : LRUCache K V :=
  { cache := dictSet s.cache k s.nodes.length,
    nodes := s.nodes ++
      [({ key := k, value := v, prev := s.nodes.length, next := s.nodes.length } : Node K V)],
    queue := s.queue,
    size := s.size,
    maxsize := s.maxsize }

/-- `LRUCache.__setitem__(key, value)`: insert, then evict once if
`size > maxsize`.  The flag is `true` when `_delete_oldest` raised. -/
def setitem [Inhabited K] [Inhabited V] [DecidableEq K] (s : LRUCache K V) (k : K) (v : V) :
    LRUCache K V × Bool :=
  let s1 := insertRaw s k v
  if s1.size > s1.maxsize then deleteOldest s1 else (s1, false)

/-- `LRUCache.__contains__(key)`. -/
def contains [DecidableEq K] (s : LRUCache K V) (k : K) : Bool :=
  dictMem s.cache k

/-- `LRUCache.__len__()`. -/
def cacheLen (s : LRUCache K V) : Int :=
  s.size

/-- The loop of `LRUCache.__iter__`: `while node: yield node.key;
node = node.next`.  The `Bool` is `true` iff the loop has exited (reached
`None`) within `fuel` steps. -/
def iterKeysAux [Inhabited K] [Inhabited V] (s : LRUCache K V) :
    Nat → Option Nat → List K × Bool
  | 0, _ => ([], false)
  | _ + 1, none => ([], true)
  | fuel + 1, some i =>
    let r := iterKeysAux s fuel (some (nget s i).next)
    ((nget s i).key :: r.1, r.2)

/-- `LRUCache.__iter__`, started at `self.queue`. -/
def iterKeys [Inhabited K] [Inhabited V] (s : LRUCache K V) (fuel : Nat) : List K × Bool :=
  iterKeysAux s fuel s.queue

/-- The loop of `LRUCache.iteritems`. -/
def iterItemsAux [Inhabited K] [Inhabited V] (s : LRUCache K V) :
    Nat → Option Nat → List (K × V) × Bool
  | 0, _ => ([], false)
  | _ + 1, none => ([], true)
  | fuel + 1, some i =>
    let r := iterItemsAux s fuel (some (nget s i).next)
    (((nget s i).key, (nget s i).value) :: r.1, r.2)

/-- `LRUCache.iteritems`, started at `self.queue`. -/
def iterItems [Inhabited K] [Inhabited V] (s : LRUCache K V) (fuel : Nat) :
    List (K × V) × Bool :=
  iterItemsAux s fuel s.queue

/-- The loop of `LRUCache.items`: walk `next` pointers until the head is
reached again (`while node is not self.queue`). -/
def itemsAux [Inhabited K] [Inhabited V] (s : LRUCache K V) (stop : Nat) :
    Nat → Nat → List (K × V) × Bool
  | 0, _ => ([], false)
  | fuel + 1, i =>
    if i = stop then ([], true)
    else
      let r := itemsAux s stop fuel (nget s i).next
      (((nget s i).key, (nget s i).value) :: r.1, r.2)

/-- `LRUCache.items()`: empty list for an empty queue, otherwise the head
entry followed by the walk back to the head. -/
def items [Inhabited K] [Inhabited V] (s : LRUCache K V) (fuel : Nat) :
    List (K × V) × Bool :=
  match s.queue with
  | none => ([], true)
  | some q =>
    let r := itemsAux s q fuel (nget s q).next
    (((nget s q).key, (nget s q).value) :: r.1, r.2)

/-- Run a sequence of `put` operations, stopping at the first uncaught
`KeyError`; the returned state is the state at that point. -/
def runPuts [Inhabited K] [Inhabited V] [DecidableEq K] (s : LRUCache K V) :
    List (K × V) → LRUCache K V × Bool
  | [] => (s, false)
  | (k, v) :: rest =>
    let r := setitem s k v
    if r.2 then (r.1, true) else runPuts r.1 rest

/-- The cache object captured by `lru_cache`'s closure: a plain dict or an
`LRUCache`, depending on the truthiness of `maxsize`. -/
inductive Backend (K V : Type) where
  | dict : List (K × V) → Backend K V
  | lru : LRUCache K V → Backend K V
deriving Repr, DecidableEq

/-- The backend selection in `lru_cache(func, maxsize=None)`:
`if maxsize: cache = LRUCache(maxsize) else: cache = {}`.  `None` (the
default) and `0` are falsy; every other integer is truthy. -/
def lru_cache (maxsize : Option Int) : Backend K V :=
  match maxsize with
  | some m => if m = 0 then Backend.dict [] else Backend.lru (init m)
  | none => Backend.dict []

/-- One call of `cached_func` on the plain-dict backend, with `x` standing
for the derived argument key: on a hit return `cache[key]`; on a miss store
`func(*args, **kwargs)` and return the freshly stored `cache[key]`. -/
def cachedCall {A W : Type} [DecidableEq A] (f : A → W) (d : List (A × W)) (x : A) :
    Option W × List (A × W) :=
  if dictMem d x then (dictGet? d x, d)
  else
    let d1 := dictSet d x (f x)
    (dictGet? d1 x, d1)

/-- The dict evolution over a sequence of calls to the memoized function. -/
def runCalls {A W : Type} [DecidableEq A] (f : A → W) (d : List (A × W)) :
    List A → List (A × W)
  | [] => d
  | x :: xs => runCalls f (cachedCall f d x).2 xs

/-- The dict produced by inserting the keys of `kvs` in order, with node
indices starting at `s0`. -/
def buildCache : List (K × V) → Nat → List (K × Nat)
  | [], _ => []
  | (k, _) :: rest, s0 => (k, s0) :: buildCache rest (s0 + 1)

/-- The arena node at index `i` after inserting the `kvs` entries, in order,
into an empty cache with no eviction: node `i` holds the `i`-th entry, the
head is the last index, and the circle runs from the head down to index 0
and back. -/
def nodeAt [Inhabited K] [Inhabited V] (kvs : List (K × V)) (i : Nat) : Node K V :=
  { key := (lget kvs i default).1
    value := (lget kvs i default).2
    prev := if i = kvs.length - 1 then 0 else i + 1
    next := if i = 0 then kvs.length - 1 else i - 1 }

/-- Characterization of the cache state reached by inserting the distinct
fresh entries `kvs`, in order, into an empty cache of capacity `c` without
any eviction. -/
def shape [Inhabited K] [Inhabited V] (c : Int) (kvs : List (K × V)) (s : LRUCache K V) : Prop :=
  s.maxsize = c ∧
  s.size = (kvs.length : Int) ∧
  s.nodes.length = kvs.length ∧
  s.cache = buildCache kvs 0 ∧
  s.queue = (if kvs.length = 0 then none else some (kvs.length - 1)) ∧
  ∀ i, i < kvs.length → nget s i = nodeAt kvs i

/-- Capacity-2 cache after `put(0, 1)`. -/
def c1s1 : LRUCache Nat Nat := (setitem (init 2) 0 1).1

/-- Capacity-2 cache after `put(0, 1); put(0, 2)` (a re-insertion). -/
def c1s2 : LRUCache Nat Nat := (setitem c1s1 0 2).1

/-- Capacity-1 cache after `put(0, 1)`. -/
def c1t1 : LRUCache Nat Nat := (setitem (init 1) 0 1).1

/-- Capacity-1 cache after a single `put(0, 0)`: the smallest non-empty
cache. -/
def c5state : LRUCache Nat Nat := (setitem (init 1) 0 0).1

/-- Capacity-3 cache after `put(0,0); put(1,10); put(2,20)`. -/
def c8a : LRUCache Nat Nat := (runPuts (init 3) [(0, 0), (1, 10), (2, 20)]).1

/-- The state the `get(0)` on `c8a` leaves behind. -/
def c8b : LRUCache Nat Nat := updateNode c8a 0

/-- Capacity-2 cache holding key 5 with value 7, used to instantiate the
general `get`/`contains` theorem. -/
def c9w : LRUCache Nat Nat := (setitem (init 2) 5 7).1

/-! ### Basic list lemmas -/

theorem lget_append_left {α : Type} {l l' : List α} {i : Nat} {d : α} (h : i < l.length) :
    lget (l ++ l') i d = lget l i d := by
  induction l generalizing i with
  | nil => exact absurd h (Nat.not_lt_zero i)
  | cons a t ih =>
    cases i with
    | zero => rfl
    | succ i => exact ih (Nat.lt_of_succ_lt_succ h)

theorem lget_append_length {α : Type} (l : List α) (a d : α) :
    lget (l ++ [a]) l.length d = a := by
  induction l with
  | nil => rfl
  | cons b t ih => exact ih

theorem length_lset {α : Type} (l : List α) (i : Nat) (a : α) :
    (lset l i a).length = l.length := by
  induction l generalizing i with
  | nil => rfl
  | cons b t ih =>
    cases i with
    | zero => rfl
    | succ i => simpa [lset] using ih i

theorem lset_oob {α : Type} {l : List α} {i : Nat} (a : α) (h : l.length ≤ i) :
    lset l i a = l := by
  induction l generalizing i with
  | nil => rfl
  | cons b t ih =>
    cases i with
    | zero => exact absurd h (by simp)
    | succ i => simpa [lset] using ih (Nat.le_of_succ_le_succ h)

theorem lget_lset_self {α : Type} {l : List α} {i : Nat} {a d : α} (h : i < l.length) :
    lget (lset l i a) i d = a := by
  induction l generalizing i with
  | nil => exact absurd h (Nat.not_lt_zero i)
  | cons b t ih =>
    cases i with
    | zero => rfl
    | succ i => exact ih (Nat.lt_of_succ_lt_succ h)

theorem lget_lset_of_ne {α : Type} {l : List α} {i j : Nat} {a d : α} (h : i ≠ j) :
    lget (lset l i a) j d = lget l j d := by
  induction l generalizing i j with
  | nil => rfl
  | cons b t ih =>
    cases i with
    | zero =>
      cases j with
      | zero => exact absurd rfl h
      | succ j => rfl
    | succ i =>
      cases j with
      | zero => rfl
      | succ j => exact ih (fun e => h (congrArg Nat.succ e))

theorem take_succ_lget {α : Type} [Inhabited α] {l : List α} {i : Nat} (h : i < l.length) :
    l.take (i + 1) = l.take i ++ [lget l i default] := by
  induction l generalizing i with
  | nil => exact absurd h (Nat.not_lt_zero i)
  | cons b t ih =>
    cases i with
    | zero => rfl
    | succ i => simpa [List.take_succ_cons, lget] using ih (Nat.lt_of_succ_lt_succ h)

/-! ### Dict lemmas -/

theorem dictGet?_eq_none_iff {K α : Type} [DecidableEq K] {d : List (K × α)} {k : K} :
    dictGet? d k = none ↔ k ∉ d.map Prod.fst := by
  induction d with
  | nil => simp [dictGet?]
  | cons p rest ih =>
    obtain ⟨k', v⟩ := p
    by_cases h : k' = k
    · subst h
      simp [dictGet?]
    · simp [dictGet?, h, ih, Ne.symm h]

theorem dictMem_true_iff {K α : Type} [DecidableEq K] {d : List (K × α)} {k : K} :
    dictMem d k = true ↔ k ∈ d.map Prod.fst := by
  rw [dictMem, Option.isSome_iff_ne_none]
  constructor
  · intro h
    by_contra hk
    exact h (dictGet?_eq_none_iff.2 hk)
  · intro h he
    exact (dictGet?_eq_none_iff.1 he) h

theorem dictMem_false_of_not_mem {K α : Type} [DecidableEq K] {d : List (K × α)} {k : K}
    (h : k ∉ d.map Prod.fst) : dictMem d k = false := by
  rw [← Bool.not_eq_true, dictMem_true_iff]
  exact h

theorem dictSet_fresh {K α : Type} [DecidableEq K] {d : List (K × α)} {k : K} (v : α)
    (h : dictGet? d k = none) : dictSet d k v = d ++ [(k, v)] := by
  induction d with
  | nil => rfl
  | cons p rest ih =>
    obtain ⟨k', v'⟩ := p
    by_cases hk : k' = k
    · rw [dictGet?, if_pos hk] at h
      exact absurd h (by simp)
    · rw [dictGet?, if_neg hk] at h
      simp [dictSet, hk, ih h]

theorem dictGet?_dictSet_self {K α : Type} [DecidableEq K] (d : List (K × α)) (k : K) (v : α) :
    dictGet? (dictSet d k v) k = some v := by
  induction d with
  | nil => simp [dictSet, dictGet?]
  | cons p rest ih =>
    obtain ⟨k', v'⟩ := p
    by_cases hk : k' = k
    · simp [dictSet, dictGet?, hk]
    · simp only [dictSet, if_neg hk, dictGet?, if_neg hk]
      exact ih

theorem dictGet?_dictSet_ne {K α : Type} [DecidableEq K] (d : List (K × α)) (k : K) (v : α)
    {x : K} (hx : x ≠ k) : dictGet? (dictSet d k v) x = dictGet? d x := by
  induction d with
  | nil => simp [dictSet, dictGet?, Ne.symm hx]
  | cons p rest ih =>
    obtain ⟨k', v'⟩ := p
    by_cases hk : k' = k
    · subst hk
      simp [dictSet, dictGet?, Ne.symm hx]
    · by_cases hkx : k' = x
      · subst hkx
        simp [dictSet, if_neg hk, dictGet?]
      · simp only [dictSet, if_neg hk, dictGet?, if_neg hkx]
        exact ih

theorem dictMem_dictSet_true_iff {K α : Type} [DecidableEq K]
    {d : List (K × α)} {k x : K} {v : α} :
    dictMem (dictSet d k v) x = true ↔ (x = k ∨ dictMem d x = true) := by
  by_cases hx : x = k
  · subst hx
    simp [dictMem, dictGet?_dictSet_self]
  · rw [dictMem, dictGet?_dictSet_ne d k v hx, ← dictMem]
    simp [hx]

/-! ### buildCache lemmas -/

theorem buildCache_append (as bs : List (K × V)) (s0 : Nat) :
    buildCache (as ++ bs) s0 = buildCache as s0 ++ buildCache bs (s0 + as.length) := by
  induction as generalizing s0 with
  | nil => simp [buildCache]
  | cons p rest ih =>
    obtain ⟨k, v⟩ := p
    have harith : s0 + 1 + rest.length = s0 + (rest.length + 1) := by omega
    calc buildCache (((k, v) :: rest) ++ bs) s0
        = (k, s0) :: buildCache (rest ++ bs) (s0 + 1) := rfl
      _ = (k, s0) :: (buildCache rest (s0 + 1) ++ buildCache bs (s0 + 1 + rest.length)) := by
          rw [ih (s0 + 1)]
      _ = buildCache ((k, v) :: rest) s0 ++ buildCache bs (s0 + ((k, v) :: rest).length) := by
          rw [harith]
          rfl

theorem map_fst_buildCache (kvs : List (K × V)) (s0 : Nat) :
    (buildCache kvs s0).map Prod.fst = kvs.map Prod.fst := by
  induction kvs generalizing s0 with
  | nil => rfl
  | cons p rest ih =>
    obtain ⟨k, v⟩ := p
    simp [buildCache, ih]

theorem dictGet?_buildCache_none [DecidableEq K] {kvs : List (K × V)} {k : K} (s0 : Nat)
    (h : k ∉ kvs.map Prod.fst) : dictGet? (buildCache kvs s0) k = none := by
  rw [dictGet?_eq_none_iff, map_fst_buildCache]
  exact h

/-! ### Frame lemmas for the linked-list operations -/

section Frame

variable [DecidableEq K] [Inhabited K] [Inhabited V]

@[simp] theorem setNext_cache (s : LRUCache K V) (i j : Nat) :
    (setNext s i j).cache = s.cache := rfl

@[simp] theorem setNext_size (s : LRUCache K V) (i j : Nat) :
    (setNext s i j).size = s.size := rfl

@[simp] theorem setNext_maxsize (s : LRUCache K V) (i j : Nat) :
    (setNext s i j).maxsize = s.maxsize := rfl

@[simp] theorem setNext_queue (s : LRUCache K V) (i j : Nat) :
    (setNext s i j).queue = s.queue := rfl

@[simp] theorem setNext_nodes_length (s : LRUCache K V) (i j : Nat) :
    (setNext s i j).nodes.length = s.nodes.length := by
  simp [setNext, length_lset]

@[simp] theorem setPrev_cache (s : LRUCache K V) (i j : Nat) :
    (setPrev s i j).cache = s.cache := rfl

@[simp] theorem setPrev_size (s : LRUCache K V) (i j : Nat) :
    (setPrev s i j).size = s.size := rfl

@[simp] theorem setPrev_maxsize (s : LRUCache K V) (i j : Nat) :
    (setPrev s i j).maxsize = s.maxsize := rfl

@[simp] theorem setPrev_queue (s : LRUCache K V) (i j : Nat) :
    (setPrev s i j).queue = s.queue := rfl

@[simp] theorem setPrev_nodes_length (s : LRUCache K V) (i j : Nat) :
    (setPrev s i j).nodes.length = s.nodes.length := by
  simp [setPrev, length_lset]

theorem nget_setNext_ne (s : LRUCache K V) {a j : Nat} (b : Nat) (h : a ≠ j) :
    nget (setNext s a b) j = nget s j := by
  unfold nget setNext
  exact lget_lset_of_ne h

theorem nget_setNext_self (s : LRUCache K V) {a : Nat} (b : Nat) (h : a < s.nodes.length) :
    nget (setNext s a b) a = { nget s a with next := b } := by
  unfold nget setNext
  exact lget_lset_self h

theorem nget_setPrev_ne (s : LRUCache K V) {a j : Nat} (b : Nat) (h : a ≠ j) :
    nget (setPrev s a b) j = nget s j := by
  unfold nget setPrev
  exact lget_lset_of_ne h

theorem nget_setPrev_self (s : LRUCache K V) {a : Nat} (b : Nat) (h : a < s.nodes.length) :
    nget (setPrev s a b) a = { nget s a with prev := b } := by
  unfold nget setPrev
  exact lget_lset_self h

@[simp] theorem nget_setNext_key (s : LRUCache K V) (a b j : Nat) :
    (nget (setNext s a b) j).key = (nget s j).key := by
  by_cases h : a = j
  · subst h
    by_cases hl : a < s.nodes.length
    · rw [nget_setNext_self s b hl]
    · unfold nget setNext
      rw [lset_oob _ (Nat.le_of_not_lt hl)]
  · rw [nget_setNext_ne s b h]

@[simp] theorem nget_setNext_value (s : LRUCache K V) (a b j : Nat) :
    (nget (setNext s a b) j).value = (nget s j).value := by
  by_cases h : a = j
  · subst h
    by_cases hl : a < s.nodes.length
    · rw [nget_setNext_self s b hl]
    · unfold nget setNext
      rw [lset_oob _ (Nat.le_of_not_lt hl)]
  · rw [nget_setNext_ne s b h]

@[simp] theorem nget_setPrev_key (s : LRUCache K V) (a b j : Nat) :
    (nget (setPrev s a b) j).key = (nget s j).key := by
  by_cases h : a = j
  · subst h
    by_cases hl : a < s.nodes.length
    · rw [nget_setPrev_self s b hl]
    · unfold nget setPrev
      rw [lset_oob _ (Nat.le_of_not_lt hl)]
  · rw [nget_setPrev_ne s b h]

@[simp] theorem nget_setPrev_value (s : LRUCache K V) (a b j : Nat) :
    (nget (setPrev s a b) j).value = (nget s j).value := by
  by_cases h : a = j
  · subst h
    by_cases hl : a < s.nodes.length
    · rw [nget_setPrev_self s b hl]
    · unfold nget setPrev
      rw [lset_oob _ (Nat.le_of_not_lt hl)]
  · rw [nget_setPrev_ne s b h]

@[simp] theorem unlink_cache (s : LRUCache K V) (i : Nat) :
    (unlink s i).cache = s.cache := by
  unfold unlink
  split <;> split <;> rfl

@[simp] theorem unlink_size (s : LRUCache K V) (i : Nat) :
    (unlink s i).size = s.size := by
  unfold unlink
  split <;> split <;> rfl

@[simp] theorem unlink_maxsize (s : LRUCache K V) (i : Nat) :
    (unlink s i).maxsize = s.maxsize := by
  unfold unlink
  split <;> split <;> rfl

@[simp] theorem unlink_queue (s : LRUCache K V) (i : Nat) :
    (unlink s i).queue = s.queue := by
  unfold unlink
  split <;> split <;> rfl

@[simp] theorem unlink_nodes_length (s : LRUCache K V) (i : Nat) :
    (unlink s i).nodes.length = s.nodes.length := by
  unfold unlink
  split <;> split <;> simp

@[simp] theorem nget_unlink_key (s : LRUCache K V) (i j : Nat) :
    (nget (unlink s i) j).key = (nget s j).key := by
  unfold unlink
  split <;> split <;> simp

@[simp] theorem nget_unlink_value (s : LRUCache K V) (i j : Nat) :
    (nget (unlink s i) j).value = (nget s j).value := by
  unfold unlink
  split <;> split <;> simp

@[simp] theorem listPrepend_cache (s : LRUCache K V) (h i : Nat) :
    (listPrepend s h i).cache = s.cache := rfl

@[simp] theorem listPrepend_size (s : LRUCache K V) (h i : Nat) :
    (listPrepend s h i).size = s.size := rfl

@[simp] theorem listPrepend_maxsize (s : LRUCache K V) (h i : Nat) :
    (listPrepend s h i).maxsize = s.maxsize := rfl

@[simp] theorem listPrepend_queue (s : LRUCache K V) (h i : Nat) :
    (listPrepend s h i).queue = s.queue := rfl

@[simp] theorem listPrepend_nodes_length (s : LRUCache K V) (h i : Nat) :
    (listPrepend s h i).nodes.length = s.nodes.length := by
  simp [listPrepend]

@[simp] theorem nget_listPrepend_key (s : LRUCache K V) (h i j : Nat) :
    (nget (listPrepend s h i) j).key = (nget s j).key := by
  simp [listPrepend]

@[simp] theorem nget_listPrepend_value (s : LRUCache K V) (h i j : Nat) :
    (nget (listPrepend s h i) j).value = (nget s j).value := by
  simp [listPrepend]

@[simp] theorem updateNode_cache (s : LRUCache K V) (i : Nat) :
    (updateNode s i).cache = s.cache := by
  unfold updateNode
  cases s.queue with
  | none => rfl
  | some q => by_cases h : i = q <;> simp [h]

@[simp] theorem updateNode_size (s : LRUCache K V) (i : Nat) :
    (updateNode s i).size = s.size := by
  unfold updateNode
  cases s.queue with
  | none => rfl
  | some q => by_cases h : i = q <;> simp [h]

@[simp] theorem updateNode_maxsize (s : LRUCache K V) (i : Nat) :
    (updateNode s i).maxsize = s.maxsize := by
  unfold updateNode
  cases s.queue with
  | none => rfl
  | some q => by_cases h : i = q <;> simp [h]

@[simp] theorem updateNode_queue (s : LRUCache K V) (i : Nat) :
    (updateNode s i).queue = some i := by
  unfold updateNode
  cases s.queue with
  | none => rfl
  | some q => by_cases h : i = q <;> simp [h]

@[simp] theorem updateNode_nodes_length (s : LRUCache K V) (i : Nat) :
    (updateNode s i).nodes.length = s.nodes.length := by
  unfold updateNode
  cases s.queue with
  | none => rfl
  | some q => by_cases h : i = q <;> simp [h]

theorem nget_setQueue (s : LRUCache K V) (o : Option Nat) (j : Nat) :
    nget ({ s with queue := o } : LRUCache K V) j = nget s j := rfl

@[simp] theorem nget_updateNode_key (s : LRUCache K V) (i j : Nat) :
    (nget (updateNode s i) j).key = (nget s j).key := by
  unfold updateNode
  cases s.queue with
  | none => rfl
  | some q =>
    dsimp only
    by_cases h : i = q
    · rw [if_pos h, nget_setQueue]
    · rw [if_neg h, nget_setQueue]
      simp

@[simp] theorem nget_updateNode_value (s : LRUCache K V) (i j : Nat) :
    (nget (updateNode s i) j).value = (nget s j).value := by
  unfold updateNode
  cases s.queue with
  | none => rfl
  | some q =>
    dsimp only
    by_cases h : i = q
    · rw [if_pos h, nget_setQueue]
    · rw [if_neg h, nget_setQueue]
      simp

end Frame

/-! ### The state reached by inserting distinct fresh keys -/

section Shape

variable [DecidableEq K] [Inhabited K] [Inhabited V]

theorem nget_setSize (s : LRUCache K V) (z : Int) (j : Nat) :
    nget ({ s with size := z } : LRUCache K V) j = nget s j := rfl

theorem insertRaw_eq (s : LRUCache K V) (k : K) (v : V) :
    insertRaw s k v =
      { updateNode (midInsert s k v) s.nodes.length with
        size := (updateNode (midInsert s k v) s.nodes.length).size + 1 } := rfl

@[simp] theorem midInsert_queue (s : LRUCache K V) (k : K) (v : V) :
    (midInsert s k v).queue = s.queue := rfl

@[simp] theorem midInsert_size (s : LRUCache K V) (k : K) (v : V) :
    (midInsert s k v).size = s.size := rfl

@[simp] theorem midInsert_maxsize (s : LRUCache K V) (k : K) (v : V) :
    (midInsert s k v).maxsize = s.maxsize := rfl

@[simp] theorem midInsert_cache (s : LRUCache K V) (k : K) (v : V) :
    (midInsert s k v).cache = dictSet s.cache k s.nodes.length := rfl

@[simp] theorem midInsert_nodes_length (s : LRUCache K V) (k : K) (v : V) :
    (midInsert s k v).nodes.length = s.nodes.length + 1 := by
  simp [midInsert]

theorem nget_midInsert_lt (s : LRUCache K V) (k : K) (v : V) {j : Nat}
    (h : j < s.nodes.length) : nget (midInsert s k v) j = nget s j := by
  unfold nget midInsert
  exact lget_append_left h

theorem nget_midInsert_last (s : LRUCache K V) (k : K) (v : V) :
    nget (midInsert s k v) s.nodes.length =
      { key := k, value := v, prev := s.nodes.length, next := s.nodes.length } := by
  unfold nget midInsert
  exact lget_append_length _ _ _

theorem insertRaw_shape {c : Int} {ys : List (K × V)} {s : LRUCache K V} (k : K) (v : V)
    (hs : shape c ys s) (hk : k ∉ ys.map Prod.fst) :
    shape c (ys ++ [(k, v)]) (insertRaw s k v) := by
  obtain ⟨hmax, hsize, hlen, hcache, hqueue, hnodes⟩ := hs
  rw [insertRaw_eq]
  refine ⟨?_, ?_, ?_, ?_, ?_, ?_⟩
  · show (updateNode (midInsert s k v) s.nodes.length).maxsize = c
    rw [updateNode_maxsize, midInsert_maxsize, hmax]
  · show (updateNode (midInsert s k v) s.nodes.length).size + 1 = _
    rw [updateNode_size, midInsert_size, hsize]
    simp
  · show (updateNode (midInsert s k v) s.nodes.length).nodes.length = _
    rw [updateNode_nodes_length, midInsert_nodes_length, hlen]
    simp
  · show (updateNode (midInsert s k v) s.nodes.length).cache = _
    rw [updateNode_cache, midInsert_cache, hcache, hlen,
      dictSet_fresh ys.length (dictGet?_buildCache_none 0 hk), buildCache_append]
    simp [buildCache]
  · show (updateNode (midInsert s k v) s.nodes.length).queue = _
    rw [updateNode_queue, hlen]
    simp
  · intro j hj
    have hj' : j < ys.length + 1 := by simpa using hj
    show nget (updateNode (midInsert s k v) s.nodes.length) j = _
    cases hm : ys.length with
    | zero =>
      obtain rfl : ys = [] := List.length_eq_zero.mp hm
      rw [hm] at hj'
      obtain rfl : j = 0 := by omega
      rw [hm] at hlen
      have hqn : (midInsert s k v).queue = none := by
        rw [midInsert_queue, hqueue]
        simp
      have hupd : updateNode (midInsert s k v) s.nodes.length =
          { midInsert s k v with queue := some s.nodes.length } := by
        unfold updateNode
        rw [hqn]
      rw [hupd, nget_setQueue]
      have hlast := nget_midInsert_last s k v
      rw [hlen] at hlast
      rw [hlast]
      simp [nodeAt, lget]
    | succ m' =>
      have hL : s.nodes.length = m' + 1 := hlen.trans hm
      rw [hm] at hj'
      have hqs : s.queue = some m' := by
        rw [hqueue, hm]
        simp
      have hqA : (midInsert s k v).queue = some m' := by
        rw [midInsert_queue, hqs]
      have hnn : nget (midInsert s k v) (m' + 1) =
          ({ key := k, value := v, prev := m' + 1, next := m' + 1 } : Node K V) := by
        have hlast := nget_midInsert_last s k v
        rw [hL] at hlast
        exact hlast
      have hunl : unlink (midInsert s k v) (m' + 1) = midInsert s k v := by
        unfold unlink
        rw [hnn]
        simp
      have hp : (nget (midInsert s k v) m').prev = 0 := by
        have h1 : nget (midInsert s k v) m' = nget s m' :=
          nget_midInsert_lt s k v (by omega)
        have h2 : nget s m' = nodeAt ys m' := hnodes m' (by omega)
        rw [h1, h2]
        simp [nodeAt, hm]
      have hupd : updateNode (midInsert s k v) s.nodes.length =
          { listPrepend (midInsert s k v) m' (m' + 1) with queue := some (m' + 1) } := by
        rw [hL]
        unfold updateNode
        rw [hqA]
        dsimp only
        rw [if_neg (by omega : ¬(m' + 1 = m')), hunl]
      have hpre : listPrepend (midInsert s k v) m' (m' + 1) =
          setNext (setPrev (setPrev (setNext (midInsert s k v) 0 (m' + 1)) (m' + 1) 0)
            m' (m' + 1)) (m' + 1) m' := by
        unfold listPrepend
        rw [hp]
      rw [hupd, nget_setQueue, hpre]
      have hb1 : (m' + 1) <
          (setPrev (setPrev (setNext (midInsert s k v) 0 (m' + 1)) (m' + 1) 0)
            m' (m' + 1)).nodes.length := by
        simp only [setPrev_nodes_length, setNext_nodes_length, midInsert_nodes_length, hL]
        omega
      have hb2 : (m' + 1) <
          (setNext (midInsert s k v) 0 (m' + 1)).nodes.length := by
        simp only [setNext_nodes_length, midInsert_nodes_length, hL]
        omega
      have hb3 : m' <
          (setPrev (setNext (midInsert s k v) 0 (m' + 1)) (m' + 1) 0).nodes.length := by
        simp only [setPrev_nodes_length, setNext_nodes_length, midInsert_nodes_length, hL]
        omega
      have hb0 : (0 : Nat) < (midInsert s k v).nodes.length := by
        simp only [midInsert_nodes_length, hL]
        omega
      have hlast' : lget (ys ++ [(k, v)]) (m' + 1) default = (k, v) := by
        have := lget_append_length ys (k, v) (default : K × V)
        rw [hm] at this
        exact this
      by_cases hjm : j = m' + 1
      · subst hjm
        rw [nget_setNext_self _ m' hb1,
          nget_setPrev_ne _ (m' + 1) (by omega : m' ≠ m' + 1),
          nget_setPrev_self _ 0 hb2,
          nget_setNext_ne _ (m' + 1) (by omega : (0 : Nat) ≠ m' + 1), hnn]
        simp [nodeAt, hlast', hm]
      · by_cases hjq : j = m'
        · rw [hjq]
          rw [nget_setNext_ne _ m' (by omega : m' + 1 ≠ m'),
            nget_setPrev_self _ (m' + 1) hb3,
            nget_setPrev_ne _ 0 (by omega : m' + 1 ≠ m')]
          by_cases h0 : m' = 0
          · subst h0
            rw [nget_setNext_self _ (0 + 1) hb0]
            have hA0 : nget (midInsert s k v) 0 = nodeAt ys 0 := by
              rw [nget_midInsert_lt s k v (by omega)]
              exact hnodes 0 (by omega)
            rw [hA0]
            have hg0 : lget (ys ++ [(k, v)]) 0 default = lget ys 0 default :=
              lget_append_left (by omega)
            simp [nodeAt, hm, hg0]
          · rw [nget_setNext_ne _ (m' + 1) (Ne.symm h0)]
            have hAm' : nget (midInsert s k v) m' = nodeAt ys m' := by
              rw [nget_midInsert_lt s k v (by omega)]
              exact hnodes m' (by omega)
            rw [hAm']
            have hgm' : lget (ys ++ [(k, v)]) m' default = lget ys m' default :=
              lget_append_left (by omega)
            simp [nodeAt, hm, hgm', h0]
        · by_cases hj0 : j = 0
          · subst hj0
            rw [nget_setNext_ne _ m' (by omega : m' + 1 ≠ 0),
              nget_setPrev_ne _ (m' + 1) (by omega : m' ≠ 0),
              nget_setPrev_ne _ 0 (by omega : m' + 1 ≠ 0),
              nget_setNext_self _ (m' + 1) hb0]
            have hA0 : nget (midInsert s k v) 0 = nodeAt ys 0 := by
              rw [nget_midInsert_lt s k v (by omega)]
              exact hnodes 0 (by omega)
            rw [hA0]
            have hg0 : lget (ys ++ [(k, v)]) 0 default = lget ys 0 default :=
              lget_append_left (by omega)
            have hm'0 : m' ≠ 0 := fun h => hjq (by omega)
            simp [nodeAt, hm, hg0, hm'0, Ne.symm hm'0]
          · rw [nget_setNext_ne _ m' (by omega : m' + 1 ≠ j),
              nget_setPrev_ne _ (m' + 1) (by omega : m' ≠ j),
              nget_setPrev_ne _ 0 (by omega : m' + 1 ≠ j),
              nget_setNext_ne _ (m' + 1) (by omega : (0 : Nat) ≠ j)]
            have hAj : nget (midInsert s k v) j = nodeAt ys j := by
              rw [nget_midInsert_lt s k v (by omega)]
              exact hnodes j (by omega)
            rw [hAj]
            have hgj : lget (ys ++ [(k, v)]) j default = lget ys j default :=
              lget_append_left (by omega)
            simp [nodeAt, hm, hgj, hj0, hjm, hjq]

theorem runPuts_append (s : LRUCache K V) (xs ys : List (K × V)) :
    runPuts s (xs ++ ys) =
      if (runPuts s xs).2 then runPuts s xs else runPuts (runPuts s xs).1 ys := by
  induction xs generalizing s with
  | nil => simp [runPuts]
  | cons p rest ih =>
    obtain ⟨k, v⟩ := p
    by_cases h : (setitem s k v).2
    · simp [runPuts, h]
    · simp [runPuts, h, ih]

theorem shape_init (c : Int) : shape c [] (init (K := K) (V := V) c) := by
  refine ⟨rfl, rfl, rfl, rfl, rfl, ?_⟩
  intro i hi
  simp at hi

theorem runPuts_shape {c : Int} (kvs : List (K × V)) (hnd : (kvs.map Prod.fst).Nodup)
    (hlen : (kvs.length : Int) ≤ c) :
    (runPuts (init (K := K) (V := V) c) kvs).2 = false ∧
      shape c kvs (runPuts (init (K := K) (V := V) c) kvs).1 := by
  induction kvs using List.reverseRecOn with
  | nil => exact ⟨rfl, shape_init c⟩
  | append_singleton ys z ih =>
    obtain ⟨k, v⟩ := z
    rw [List.map_append, List.nodup_append] at hnd
    obtain ⟨hnd1, _, hdisj⟩ := hnd
    have hk : k ∉ ys.map Prod.fst := fun hmem => hdisj hmem (by simp)
    have hlys : (ys.length : Int) ≤ c := by
      rw [List.length_append] at hlen
      push_cast at hlen
      omega
    obtain ⟨herr, hsh⟩ := ih hnd1 hlys
    have hsh' := insertRaw_shape k v hsh hk
    have hnoev : ¬((insertRaw (runPuts (init (K := K) (V := V) c) ys).1 k v).size >
        (insertRaw (runPuts (init (K := K) (V := V) c) ys).1 k v).maxsize) := by
      rw [hsh'.2.1, hsh'.1]
      rw [List.length_append] at hlen ⊢
      push_cast at hlen ⊢
      omega
    have hset : setitem (runPuts (init (K := K) (V := V) c) ys).1 k v =
        (insertRaw (runPuts (init (K := K) (V := V) c) ys).1 k v, false) := by
      unfold setitem
      rw [if_neg hnoev]
    rw [runPuts_append, herr]
    simp only [Bool.false_eq_true, if_false]
    rw [runPuts, hset]
    exact ⟨rfl, hsh'⟩

theorem deleteOldest_shape {c : Int} {pk : K} {pv : V} {rest : List (K × V)}
    {s : LRUCache K V} (hs : shape c ((pk, pv) :: rest) s) :
    (deleteOldest s).2 = false ∧
    (deleteOldest s).1.cache = buildCache rest 1 ∧
    (deleteOldest s).1.size = (rest.length : Int) := by
  obtain ⟨hmax, hsize, hlen, hcache, hqueue, hnodes⟩ := hs
  have hq : s.queue = some rest.length := by
    rw [hqueue]
    simp
  have ht : (nget s rest.length).prev = 0 := by
    rw [hnodes rest.length (by simp)]
    simp [nodeAt]
  have hk0 : (nget s 0).key = pk := by
    rw [hnodes 0 (by simp)]
    simp [nodeAt, lget]
  have hdel : dictDel? s.cache (nget s 0).key = some (buildCache rest 1) := by
    rw [hk0, hcache]
    show dictDel? ((pk, 0) :: buildCache rest 1) pk = some (buildCache rest 1)
    simp [dictDel?]
  have heq : deleteOldest s =
      ({ unlink ({ s with cache := buildCache rest 1 } : LRUCache K V) 0 with
          size := (unlink ({ s with cache := buildCache rest 1 } : LRUCache K V) 0).size - 1 },
        false) := by
    unfold deleteOldest
    rw [hq]
    dsimp only
    rw [ht, hdel]
  rw [heq]
  refine ⟨rfl, ?_, ?_⟩
  · show (unlink ({ s with cache := buildCache rest 1 } : LRUCache K V) 0).cache = _
    rw [unlink_cache]
  · show (unlink ({ s with cache := buildCache rest 1 } : LRUCache K V) 0).size - 1 = _
    rw [unlink_size]
    show s.size - 1 = _
    rw [hsize, List.length_cons]
    push_cast
    omega

theorem itemsAux_walk {c : Int} {kvs : List (K × V)} {s : LRUCache K V} (hs : shape c kvs s) :
    ∀ (j f : Nat), j + 1 < kvs.length → j + 2 ≤ f →
    itemsAux s (kvs.length - 1) f j = ((kvs.take (j + 1)).reverse, true) := by
  obtain ⟨hmax, hsize, hlen, hcache, hqueue, hnodes⟩ := hs
  intro j
  induction j with
  | zero =>
    intro f h1 h2
    obtain ⟨f2, rfl⟩ : ∃ f2, f = f2 + 2 := ⟨f - 2, by omega⟩
    show itemsAux s (kvs.length - 1) (f2 + 1 + 1) 0 = _
    rw [itemsAux, if_neg (by omega : ¬(0 = kvs.length - 1))]
    have h0 : nget s 0 = nodeAt kvs 0 := hnodes 0 (by omega)
    rw [h0]
    have hnx : (nodeAt kvs 0).next = kvs.length - 1 := by simp [nodeAt]
    rw [hnx, itemsAux, if_pos rfl]
    rw [take_succ_lget (by omega : 0 < kvs.length)]
    simp [nodeAt]
  | succ j ih =>
    intro f h1 h2
    obtain ⟨f1, rfl⟩ : ∃ f1, f = f1 + 1 := ⟨f - 1, by omega⟩
    rw [itemsAux, if_neg (by omega : ¬(j + 1 = kvs.length - 1))]
    have hj1 : nget s (j + 1) = nodeAt kvs (j + 1) := hnodes _ (by omega)
    rw [hj1]
    have hnx : (nodeAt kvs (j + 1)).next = j := by simp [nodeAt]
    rw [hnx, ih f1 (by omega) (by omega)]
    rw [take_succ_lget (by omega : j + 1 < kvs.length)]
    simp [nodeAt]

theorem items_shape {c : Int} {kvs : List (K × V)} {s : LRUCache K V} (hs : shape c kvs s) :
    items s kvs.length = (kvs.reverse, true) := by
  have hs' := hs
  obtain ⟨hmax, hsize, hlen, hcache, hqueue, hnodes⟩ := hs'
  cases hm : kvs.length with
  | zero =>
    obtain rfl : kvs = [] := List.length_eq_zero.mp hm
    unfold items
    rw [hqueue]
    simp
  | succ m' =>
    have hq : s.queue = some m' := by
      rw [hqueue, hm]
      simp
    unfold items
    rw [hq]
    dsimp only
    have hnm : nget s m' = nodeAt kvs m' := hnodes m' (by omega)
    rw [hnm]
    cases m' with
    | zero =>
      have hnx : (nodeAt kvs 0).next = 0 := by
        simp [nodeAt, hm]
      rw [hnx, itemsAux, if_pos rfl]
      have hkvs : kvs.reverse = [lget kvs 0 default] := by
        have h1 : kvs = kvs.take 0 ++ [lget kvs 0 default] := by
          conv_lhs => rw [← List.take_length kvs]
          rw [hm]
          exact take_succ_lget (by omega)
        conv_lhs => rw [h1]
        simp
      rw [hkvs]
      simp [nodeAt]
    | succ m'' =>
      have hnx : (nodeAt kvs (m'' + 1)).next = m'' := by simp [nodeAt]
      rw [hnx]
      have hw := itemsAux_walk hs m'' (m'' + 1 + 1) (by omega) (by omega)
      rw [hm] at hw
      simp only [Nat.add_sub_cancel] at hw
      rw [hw]
      have hfull : kvs.reverse = lget kvs (m'' + 1) default :: (kvs.take (m'' + 1)).reverse := by
        have h1 : kvs = kvs.take (m'' + 1) ++ [lget kvs (m'' + 1) default] := by
          conv_lhs => rw [← List.take_length kvs]
          rw [hm]
          exact take_succ_lget (by omega)
        conv_lhs => rw [h1]
        simp
      rw [hfull]
      simp [nodeAt]

theorem runPuts_overflow {c : Nat} (kvs : List (K × V)) (hnd : (kvs.map Prod.fst).Nodup)
    (hlen : kvs.length = c + 1) :
    (runPuts (init (K := K) (V := V) (c : Int)) kvs).2 = false ∧
    (runPuts (init (K := K) (V := V) (c : Int)) kvs).1.size = (c : Int) ∧
    (runPuts (init (K := K) (V := V) (c : Int)) kvs).1.cache.map Prod.fst =
      kvs.tail.map Prod.fst ∧
    (∀ p ∈ kvs.head?,
      dictMem (runPuts (init (K := K) (V := V) (c : Int)) kvs).1.cache p.1 = false) := by
  rcases List.eq_nil_or_concat' kvs with rfl | ⟨front, z, rfl⟩
  · simp at hlen
  obtain ⟨k, v⟩ := z
  have hndcopy := hnd
  have hfl : front.length = c := by
    rw [List.length_append] at hlen
    simp at hlen
    omega
  rw [List.map_append, List.nodup_append] at hnd
  obtain ⟨hnd1, _, hdisj⟩ := hnd
  have hk : k ∉ front.map Prod.fst := fun hmem => hdisj hmem (by simp)
  obtain ⟨herr, hsh⟩ := runPuts_shape (c := (c : Int)) front hnd1 (by rw [hfl])
  have hsh' := insertRaw_shape k v hsh hk
  have hev : (insertRaw (runPuts (init (K := K) (V := V) (c : Int)) front).1 k v).size >
      (insertRaw (runPuts (init (K := K) (V := V) (c : Int)) front).1 k v).maxsize := by
    rw [hsh'.2.1, hsh'.1, List.length_append, hfl, List.length_singleton]
    push_cast
    omega
  have hset : setitem (runPuts (init (K := K) (V := V) (c : Int)) front).1 k v =
      deleteOldest (insertRaw (runPuts (init (K := K) (V := V) (c : Int)) front).1 k v) := by
    unfold setitem
    rw [if_pos hev]
  obtain ⟨⟨pk, pv⟩, rest, hfull⟩ : ∃ p rest, front ++ [(k, v)] = p :: rest := by
    cases hf : front ++ [(k, v)] with
    | nil => exact absurd (congrArg List.length hf) (by simp)
    | cons a l => exact ⟨a, l, rfl⟩
  rw [hfull] at hsh'
  have hdel := deleteOldest_shape hsh'
  have hrest : rest.length = c := by
    have := congrArg List.length hfull
    rw [List.length_append, hfl] at this
    simp at this
    omega
  have hrun : runPuts (init (K := K) (V := V) (c : Int)) (front ++ [(k, v)]) =
      ((deleteOldest (insertRaw (runPuts (init (K := K) (V := V) (c : Int)) front).1 k v)).1,
        false) := by
    rw [runPuts_append, herr]
    simp only [Bool.false_eq_true, if_false]
    rw [runPuts, hset]
    simp only [runPuts, hdel.1, Bool.false_eq_true, if_false]
  rw [hrun]
  refine ⟨rfl, ?_, ?_, ?_⟩
  · rw [hdel.2.2, hrest]
  · rw [hdel.2.1, map_fst_buildCache, hfull]
    rfl
  · intro p hp
    rw [hfull] at hp
    rw [List.head?_cons, Option.mem_def] at hp
    obtain rfl : (pk, pv) = p := Option.some_injective _ hp
    have hpk : pk ∉ rest.map Prod.fst := by
      rw [hfull, List.map_cons, List.nodup_cons] at hndcopy
      exact hndcopy.1
    rw [hdel.2.1]
    apply dictMem_false_of_not_mem
    rw [map_fst_buildCache]
    exact hpk

end Shape

/-! ### The memoization adapter -/

theorem runCalls_mem {A W : Type} [DecidableEq A] (f : A → W) (d : List (A × W)) (xs : List A)
    (x : A) : dictMem (runCalls f d xs) x = true ↔ (dictMem d x = true ∨ x ∈ xs) := by
  induction xs generalizing d with
  | nil => simp [runCalls]
  | cons y ys ih =>
    show dictMem (runCalls f (cachedCall f d y).2 ys) x = true ↔ _
    rw [ih]
    unfold cachedCall
    by_cases hy : dictMem d y
    · rw [if_pos hy]
      dsimp only
      have hxy : x = y → dictMem d x = true := fun h => h ▸ hy
      simp only [List.mem_cons]
      tauto
    · rw [if_neg hy]
      dsimp only
      rw [dictMem_dictSet_true_iff]
      simp only [List.mem_cons]
      tauto

/-! ### Helper computations for the non-terminating iterators -/

theorem c5_keys_aux (f : Nat) :
    iterKeysAux c5state f (some 0) = (List.replicate f 0, false) := by
  induction f with
  | zero => rfl
  | succ f ih =>
    have hn : nget c5state 0 =
        ({ key := 0, value := 0, prev := 0, next := 0 } : Node Nat Nat) := by decide
    simp only [iterKeysAux, hn]
    rw [ih]
    simp [List.replicate_succ]

theorem c5_items_aux (f : Nat) :
    iterItemsAux c5state f (some 0) = (List.replicate f ((0 : Nat), (0 : Nat)), false) := by
  induction f with
  | zero => rfl
  | succ f ih =>
    have hn : nget c5state 0 =
        ({ key := 0, value := 0, prev := 0, next := 0 } : Node Nat Nat) := by decide
    simp only [iterItemsAux, hn]
    rw [ih]
    simp [List.replicate_succ]

/-! ### Claim theorems -/

/-- C1: the claim says `put` on an already-present key updates the value in
place, leaves `count` unchanged and never evicts, and that `put(k,v1);
put(k,v2); get(k)` returns `v2`.  The code instead allocates a second node
and increments `size`: at capacity 2, `put(0,1); put(0,2)` moves `len()`
from 1 to 2; at capacity 1 the same two puts silently run an eviction that
deletes the new dict entry, so the subsequent `get(0)` raises `KeyError`
instead of returning 2. -/
theorem C1_reinsert_not_update_in_place :
    c1s1.size = 1 ∧ (setitem c1s1 0 2).2 = false ∧ c1s2.size = 2 ∧
    (setitem c1t1 0 2).2 = false ∧ (setitem c1t1 0 2).1.cache = [] ∧
    getitem (setitem c1t1 0 2).1 0 = none := by decide

/-- C2: the claim says the dict and the queue always hold the same key set
with each key at most once, and `size` equals both entry counts.  After the
re-insertion `put(0,1); put(0,2)` at capacity 2 the dict holds one entry
while `size = 2` and the queue holds the key 0 twice; at capacity 1 the same
two puts leave the dict empty while the queue still holds one node with
key 0. -/
theorem C2_index_order_desync :
    c1s2.size = 2 ∧ c1s2.cache = [(0, 1)] ∧ items c1s2 2 = ([(0, 2), (0, 1)], true) ∧
    (setitem c1t1 0 2).1.cache = [] ∧ items (setitem c1t1 0 2).1 1 = ([(0, 2)], true) := by
  decide

/-- C3: the claim says `put` never fails on a cache constructed with positive
capacity.  With capacity 1, the put sequence `(0,1); (0,2); (1,5)` makes the
third `put` raise an uncaught `KeyError` inside `_delete_oldest` (the
eviction tries `del self.cache[0]` while the dict only holds key 1). -/
theorem C3_put_raises_keyerror :
    (runPuts (init (K := Nat) (V := Nat) 1) [(0, 1), (0, 2), (1, 5)]).2 = true := by decide

/-- C4 counterexample: constructing an `LRUCache` with capacity 0 succeeds
and produces a perfectly ordinary empty cache object — no `InvalidCapacity`
error exists anywhere in the code. -/
theorem C4_counterexample_construction_succeeds :
    init (K := Nat) (V := Nat) 0 =
      { cache := [], nodes := [], queue := none, size := 0, maxsize := 0 } ∧
    cacheLen (init (K := Nat) (V := Nat) 0) = 0 := ⟨rfl, rfl⟩

/-- C4 amended: `LRUCache.__init__` performs no capacity validation at all;
for every capacity `c`, including zero and negative values, construction
succeeds and returns an empty cache whose `maxsize` is `c`. -/
theorem C4_amended_no_validation {K V : Type} [DecidableEq K] (c : Int) (k : K) :
    init (K := K) (V := V) c =
      { cache := [], nodes := [], queue := none, size := 0, maxsize := c } ∧
    cacheLen (init (K := K) (V := V) c) = 0 ∧
    contains (init (K := K) (V := V) c) k = false := ⟨rfl, rfl, rfl⟩

/-- Witness for the amended C4 at the negative capacity -5. -/
theorem C4_witness :
    init (K := Nat) (V := Nat) (-5) =
      { cache := [], nodes := [], queue := none, size := 0, maxsize := -5 } ∧
    contains (init (K := Nat) (V := Nat) (-5)) 3 = false :=
  ⟨(C4_amended_no_validation (-5) 3).1, (C4_amended_no_validation (-5) 3).2.2⟩

/-- C5: the claim says `__iter__` and `iteritems` yield every entry exactly
once and terminate.  The linked list is circular and `next` is never `None`,
so on any non-empty cache the `while node:` loops never exit: on the
capacity-1 cache holding key 0, the key iterator emits `0` forever (after
`fuel` steps it has produced `fuel` copies and is still running, for every
`fuel`), and likewise for `iteritems`. -/
theorem C5_iteration_never_terminates (fuel : Nat) :
    (iterKeys c5state fuel).1 = List.replicate fuel 0 ∧
    (iterKeys c5state fuel).2 = false ∧
    (iterItems c5state fuel).2 = false := by
  have hq : c5state.queue = some 0 := by decide
  refine ⟨?_, ?_, ?_⟩
  · show (iterKeysAux c5state fuel c5state.queue).1 = _
    rw [hq, c5_keys_aux]
  · show (iterKeysAux c5state fuel c5state.queue).2 = _
    rw [hq, c5_keys_aux]
  · show (iterItemsAux c5state fuel c5state.queue).2 = _
    rw [hq, c5_items_aux]

/-- C6: the claim says `0 <= count <= capacity` after every put on a cache of
positive capacity.  With capacity 1, after the put sequence
`(0,1); (0,2); (1,5)` — whose third put raises `KeyError` after having
incremented `size` but before the eviction completes — the cache reports
`len() = 2 > 1 = capacity`. -/
theorem C6_count_exceeds_capacity_after_raise :
    (runPuts (init (K := Nat) (V := Nat) 1) [(0, 1), (0, 2), (1, 5)]).2 = true ∧
    (runPuts (init (K := Nat) (V := Nat) 1) [(0, 1), (0, 2), (1, 5)]).1.size = 2 ∧
    (runPuts (init (K := Nat) (V := Nat) 1) [(0, 1), (0, 2), (1, 5)]).1.maxsize = 1 := by
  decide

/-- C7: inserting `n` pairwise-distinct fresh keys into an empty cache of
capacity `c`: if `n ≤ c`, no put fails and `items()` returns the entries in
most-to-least-recently-used order, i.e. the reverse of the insertion order;
if `n = c + 1`, no put fails, exactly the first-inserted key has been
evicted (the dict's keys are exactly `k2..kn` in order, and the first key is
absent), and `count = c` afterwards. -/
theorem C7_insertion_order_and_eviction {K V : Type} [DecidableEq K] [Inhabited K]
    [Inhabited V] (c : Nat) (kvs : List (K × V)) (hnd : (kvs.map Prod.fst).Nodup) :
    (kvs.length ≤ c →
      (runPuts (init (K := K) (V := V) (c : Int)) kvs).2 = false ∧
      items (runPuts (init (K := K) (V := V) (c : Int)) kvs).1 kvs.length =
        (kvs.reverse, true)) ∧
    (kvs.length = c + 1 →
      (runPuts (init (K := K) (V := V) (c : Int)) kvs).2 = false ∧
      (runPuts (init (K := K) (V := V) (c : Int)) kvs).1.size = (c : Int) ∧
      (runPuts (init (K := K) (V := V) (c : Int)) kvs).1.cache.map Prod.fst =
        kvs.tail.map Prod.fst ∧
      (∀ p ∈ kvs.head?,
        dictMem (runPuts (init (K := K) (V := V) (c : Int)) kvs).1.cache p.1 = false)) := by
  constructor
  · intro hle
    obtain ⟨herr, hsh⟩ := runPuts_shape (c := (c : Int)) kvs hnd (by exact_mod_cast hle)
    exact ⟨herr, items_shape hsh⟩
  · intro heq
    exact runPuts_overflow kvs hnd heq

/-- Witness for C7: capacity 2 with puts `(0,5); (1,6)` yields
`items = [(1,6),(0,5)]`; capacity 1 with the same puts evicts exactly key 0,
keeping exactly key 1. -/
theorem C7_witness :
    items (runPuts (init (K := Nat) (V := Nat) 2) [(0, 5), (1, 6)]).1 2 =
      ([(1, 6), (0, 5)], true) ∧
    (runPuts (init (K := Nat) (V := Nat) 1) [(0, 5), (1, 6)]).1.cache.map Prod.fst = [1] ∧
    dictMem (runPuts (init (K := Nat) (V := Nat) 1) [(0, 5), (1, 6)]).1.cache 0 = false := by
  refine ⟨?_, ?_, ?_⟩
  · exact ((C7_insertion_order_and_eviction 2 [(0, 5), (1, 6)] (by decide)).1 (by decide)).2
  · exact ((C7_insertion_order_and_eviction 1 [(0, 5), (1, 6)] (by decide)).2
      (by decide)).2.2.1
  · exact ((C7_insertion_order_and_eviction 1 [(0, 5), (1, 6)] (by decide)).2
      (by decide)).2.2.2 (0, 5) rfl

/-- C8: on a capacity-3 cache after `put(0,0); put(1,10); put(2,20)`, a
`get(0)` returns 0 and promotes key 0 to the head of the recency order, and
the following `put(3,30)` evicts key 1, leaving keys 0, 2, 3 present and
key 1 absent. -/
theorem C8_promotion_changes_eviction_order :
    (runPuts (init (K := Nat) (V := Nat) 3) [(0, 0), (1, 10), (2, 20)]).2 = false ∧
    getitem c8a 0 = some (0, c8b) ∧
    c8b.queue = some 0 ∧
    (nget c8b 0).key = 0 ∧
    (setitem c8b 3 30).2 = false ∧
    contains (setitem c8b 3 30).1 0 = true ∧
    contains (setitem c8b 3 30).1 2 = true ∧
    contains (setitem c8b 3 30).1 3 = true ∧
    contains (setitem c8b 3 30).1 1 = false := by decide

/-- C9: for every cache state and key, `contains` agrees with dict
membership, `get` succeeds exactly when the key is present (`KeyError`
exactly on absence), and a successful `get` returns the stored value of the
key's node while changing neither the dict, nor `size`, nor `maxsize` — its
only side effect is relinking nodes and making the key's node the new head
of the recency order. -/
theorem C9_get_contains_consistency {K V : Type} [DecidableEq K] [Inhabited K] [Inhabited V]
    (s : LRUCache K V) (k : K) :
    contains s k = dictMem s.cache k ∧
    ((getitem s k).isSome ↔ contains s k = true) ∧
    (getitem s k = none ↔ dictMem s.cache k = false) ∧
    (∀ i, dictGet? s.cache k = some i →
      getitem s k = some ((nget s i).value, updateNode s i) ∧
      (updateNode s i).cache = s.cache ∧
      (updateNode s i).size = s.size ∧
      (updateNode s i).maxsize = s.maxsize ∧
      (updateNode s i).queue = some i) := by
  refine ⟨rfl, ?_, ?_, ?_⟩
  · unfold getitem contains dictMem
    cases h : dictGet? s.cache k <;> simp [h]
  · unfold getitem dictMem
    cases h : dictGet? s.cache k <;> simp [h]
  · intro i hi
    refine ⟨?_, updateNode_cache s i, updateNode_size s i, updateNode_maxsize s i,
      updateNode_queue s i⟩
    unfold getitem
    rw [hi]
    dsimp only
    rw [nget_updateNode_value]

/-- Witness for C9 on the concrete cache holding key 5 with value 7. -/
theorem C9_witness :
    contains c9w 5 = true ∧
    getitem c9w 5 = some (7, updateNode c9w 0) ∧
    (updateNode c9w 0).size = c9w.size := by
  have hi : dictGet? c9w.cache 5 = some 0 := by decide
  obtain ⟨h1, _, _, h4⟩ := C9_get_contains_consistency c9w 5
  obtain ⟨hg, _, hsz, _, _⟩ := h4 0 hi
  refine ⟨?_, ?_, hsz⟩
  · rw [h1]
    decide
  · rw [hg, show (nget c9w 0).value = 7 from by decide]

/-- C10: with a falsy `maxsize` (`None`, i.e. omitted, or `0`) `lru_cache`
performs no capacity validation and uses a plain dict instead of an
`LRUCache`; on that dict-backed memoized function nothing is ever evicted:
starting from the empty dict the backend provides, a key is cached exactly
when it has been called, and any key already cached stays cached across any
further call sequence. -/
theorem C10_falsy_maxsize_dict_backend {A W : Type} [DecidableEq A]
    (m : Option Int) (hm : m = none ∨ m = some 0) (f : A → W) (xs : List A) (x : A)
    (d : List (A × W)) :
    lru_cache (K := A) (V := W) m = Backend.dict [] ∧
    (dictMem (runCalls f [] xs) x = true ↔ x ∈ xs) ∧
    (dictMem d x = true → dictMem (runCalls f d xs) x = true) := by
  refine ⟨?_, ?_, ?_⟩
  · rcases hm with rfl | rfl
    · rfl
    · rfl
  · rw [runCalls_mem]
    simp [dictMem, dictGet?]
  · intro h
    rw [runCalls_mem]
    exact Or.inl h

/-- Witness for C10 at `maxsize = None` with calls on arguments 2, 3, 2. -/
theorem C10_witness :
    lru_cache (K := Nat) (V := Nat) none = Backend.dict [] ∧
    (dictMem (runCalls (fun n : Nat => n + 1) [] [2, 3, 2]) 3 = true ↔ 3 ∈ [2, 3, 2]) ∧
    dictMem (runCalls (fun n : Nat => n + 1) [(9, 1)] [2, 3, 2]) 9 = true := by
  refine ⟨?_, ?_, ?_⟩
  · exact (C10_falsy_maxsize_dict_backend none (Or.inl rfl) (fun n : Nat => n + 1)
      [2, 3, 2] 3 [(9, 1)]).1
  · exact (C10_falsy_maxsize_dict_backend none (Or.inl rfl) (fun n : Nat => n + 1)
      [2, 3, 2] 3 [(9, 1)]).2.1
  · exact (C10_falsy_maxsize_dict_backend none (Or.inl rfl) (fun n : Nat => n + 1)
      [2, 3, 2] 9 [(9, 1)]).2.2 (by decide)

end PyCache
